import Mathlib

/-!
Shallow embedding of `src/axware/parser.py` (AxwareLiveResults).

The Python module parses an AxWare live-results HTML table into a list of
entry dictionaries.  We embed the pure parsing logic over an abstract view
of the already-extracted HTML data: the header names (the stripped `<th>`
texts) and, for every result row, the list of `<td>` cells, each carrying
its text and whether it bears a `valign` attribute.  Python floats produced
by `float` on strings of shape `\d+\.\d+` are modelled as exact rationals;
Python strings are modelled over their character lists (ASCII fragment of
the `str` and `re` semantics, which is the fragment the vendor format and
the spec exercise).
-/

namespace Axware

/-- ASCII whitespace, the fragment of Python's `str.strip` / regex `\s`
relevant here. -/
def isWs (c : Char) : Bool :=
  c = ' ' || c = '\t' || c = '\n' || c = '\r' || c = '\x0b' || c = '\x0c'

/-- Python `str.strip` on a character list. -/
def stripL (cs : List Char) : List Char :=
  ((cs.dropWhile isWs).reverse.dropWhile isWs).reverse

/-- Python `str.strip`. -/
def pyStrip (s : String) : String := String.mk (stripL s.toList)

/-- Remove the maximal whitespace suffix (what a trailing `\s*$` absorbs). -/
def dropTrailWs (l : List Char) : List Char := (l.reverse.dropWhile isWs).reverse

/-- Numeric value of a digit string. -/
def digitsVal (cs : List Char) : Nat :=
  cs.foldl (fun a c => 10 * a + (c.toNat - '0'.toNat)) 0

/-- Value of `float("<ip>.<fp>")` for digit strings `ip`, `fp`, modelled
exactly as a rational. -/
def ratOfParts (ip fp : List Char) : ℚ :=
  (digitsVal ip : ℚ) + (digitsVal fp : ℚ) / (10 : ℚ) ^ fp.length

/-- Digit/underscore run as accepted by Python `int` after the first digit:
underscores must be single and followed by a digit. -/
def digitsUndAux : List Char → Bool
  | [] => true
  | [c] => c.isDigit
  | c :: d :: rest =>
    if c.isDigit then digitsUndAux (d :: rest)
    else if c == '_' then d.isDigit && digitsUndAux rest
    else false

/-- A valid unsigned Python `int` literal body: nonempty, starts with a
digit, underscores only between digits. -/
def digitsUnd : List Char → Bool
  | [] => false
  | c :: rest => c.isDigit && digitsUndAux rest

/-- Value of a digit/underscore run (underscores ignored). -/
def undVal (cs : List Char) : Nat := digitsVal (cs.filter (fun c => c != '_'))

/-- Python `int(s)`: strips whitespace, accepts an optional sign, then a
digit run with single underscores between digits; `none` models the
`ValueError` raised otherwise. -/
def pyInt (s : String) : Option ℤ :=
  let cs := stripL s.toList
  if cs.head? = some '+' then
    if digitsUnd cs.tail then some (undVal cs.tail : ℤ) else none
  else if cs.head? = some '-' then
    if digitsUnd cs.tail then some (-(undVal cs.tail : ℤ)) else none
  else if digitsUnd cs then some (undVal cs : ℤ) else none

/-- Matching of `_re_time = ^\s*(?P<raw_time>\d+\.\d+)(\+(?P<penalty>.+?))?\s*$`
against a string.  Returns the integer/fraction digit parts of `raw_time`
and, when the optional group participates, the `penalty` capture.  The lazy
`.+?` followed by `\s*$` makes the penalty capture exactly the remainder
after `+` with its maximal whitespace suffix removed; it must be nonempty
and (since `.` never matches a newline) newline-free. -/
def reTimeMatch (s : String) :
    Option ((List Char × List Char) × Option (List Char)) :=
  let cs1 := s.toList.dropWhile isWs
  let ip := cs1.takeWhile Char.isDigit
  let r1 := cs1.dropWhile Char.isDigit
  if ip = [] then none
  else
    match r1 with
    | '.' :: r2 =>
      let fp := r2.takeWhile Char.isDigit
      let r3 := r2.dropWhile Char.isDigit
      if fp = [] then none
      else
        match r3 with
        | '+' :: r4 =>
          let pen := dropTrailWs r4
          if pen = [] then none
          else if pen.contains '\n' then none
          else some ((ip, fp), some pen)
        | r3' => if r3'.all isWs then some ((ip, fp), none) else none
    | _ => none

/-- The four override penalty tokens. -/
def overrides : List String := ["dnf", "dsq", "off", "out"]

/-- Embedding of `parse_time`.  The triple is `(raw_time, penalty_count,
status)`; the statuses are the literal strings the Python code uses.  A
`none` result models both the explicit `return None` and the
`except`-swallowed failures (e.g. `int` raising on a non-integer cone
suffix). -/
def parse_time (raw_value : Option String) : Option (ℚ × ℤ × String) :=
  match raw_value with
  | none => none
  | some s =>
    match reTimeMatch s with
    | none => none
    | some ((ip, fp), penOpt) =>
      match penOpt with
      | none => some (ratOfParts ip fp, 0, "clean")
      | some pen =>
        let ps : String := String.mk pen
        if ps ∈ overrides then some (ratOfParts ip fp, 0, ps)
        else
          match pyInt ps with
          | some n => some (ratOfParts ip fp, n, "dirty")
          | none => none

/-- Python's substring test `needle in hay` on strings. -/
def strContains (hay needle : String) : Bool :=
  decide (needle.toList <:+: hay.toList)

/-- Matching of `_re_run = ^\s*Run\s*(?P<num>\d+)(\s*..)?\s*$` (the two dots
are unescaped, so they match any two non-newline characters).  Only success
or failure is observable in the program: the captured number feeds a dead
local variable, while a failed match raises `AttributeError` on `.group`. -/
def matchDotsTail (r : List Char) : Bool :=
  (List.range ((r.takeWhile isWs).length + 1)).any fun i =>
    match r.drop i with
    | c1 :: c2 :: rest => c1 != '\n' && c2 != '\n' && rest.all isWs
    | _ => false

/-- Remainder after the digit group: `(\s*..)?\s*$`. -/
def runTailMatches (r : List Char) : Bool :=
  r.all isWs || matchDotsTail r

/-- Whether `_re_run` matches the header (see `matchDotsTail`). -/
def reRunMatches (s : String) : Bool :=
  match s.toList.dropWhile isWs with
  | 'R' :: 'u' :: 'n' :: rest =>
    let rest2 := rest.dropWhile isWs
    let ds := rest2.takeWhile Char.isDigit
    let tl := rest2.dropWhile Char.isDigit
    decide (ds ≠ []) &&
      (List.range ds.length).any (fun j => runTailMatches (ds.drop (j + 1) ++ tl))
  | _ => false

/-- One `<td>` cell: its raw text and whether the tag carries a `valign`
attribute. -/
structure Cell where
  text : String
  valign : Bool
deriving DecidableEq, Repr

/-- A parsed run: `(raw_time, penalty_count, status)`. -/
abbrev RunVal := ℚ × ℤ × String

/-- A cell value as stored in an entry dictionary. -/
inductive Value where
  | vNone
  | vRat (q : ℚ)
  | vInt (n : ℤ)
  | vStr (s : String)
  | vRuns (rs : List RunVal)
deriving DecidableEq, Repr

/-- An entry: a Python dict as an insertion-ordered association list. -/
abbrev Entry := List (String × Value)

/-- The uncaught Python exceptions `parse_axware_live_results` can raise. -/
inductive PErr where
  /-- `int` on a non-integer `Pos` string. -/
  | valueError
  /-- `.group` on the `None` returned by a failed `_re_run.match`. -/
  | attrError
  /-- membership test or item assignment on `None`. -/
  | typeError
  /-- `entry["Total"]` with no `Total` key. -/
  | keyError
  /-- `row_data[0]` on an empty row. -/
  | indexError
deriving DecidableEq, Repr

/-- Python dict write `d[k] = v`: overwrite in place or append. -/
def dictInsert (e : Entry) (k : String) (v : Value) : Entry :=
  if e.any (fun p => p.1 == k) then
    e.map (fun p => if p.1 == k then (k, v) else p)
  else e ++ [(k, v)]

/-- Python dict read that cannot fail (`k in d` / `d.get`). -/
def dictLookup (e : Entry) (k : String) : Option Value :=
  (e.find? (fun p => p.1 == k)).map Prod.snd

/-- The `Pos` branch: `int(text.replace("T", ""))` on the stripped text. -/
def parsePos (text : String) : Option ℤ :=
  pyInt (String.mk (text.toList.filter (fun c => c != 'T')))

/-- The per-row cell loop of `parse_axware_live_results`: walk
`zip(headers, row_data)`, accumulating the field dict and the pending run
list.  Mirrors the Python control flow, including the `continue`s for
`valign`-less and unparseable run cells, the `AttributeError` on a
`Run`-containing header that `_re_run` rejects, and the propagating
`ValueError` on a bad `Pos`. -/
def processCells : List (String × Cell) → Entry → List RunVal →
    Except PErr (Entry × List RunVal)
  | [], entry, runs => .ok (entry, runs)
  | (header, cell) :: rest, entry, runs =>
    let text := pyStrip cell.text
    if strContains header "Run" then
      if cell.valign then
        match parse_time (some text) with
        | none => processCells rest entry runs
        | some rv =>
          if reRunMatches header then processCells rest entry (runs ++ [rv])
          else .error .attrError
      else processCells rest entry runs
    else if header = "Pax Time" then
      let v := match parse_time (some text) with
        | some rv => Value.vRat rv.1
        | none => Value.vNone
      processCells rest (dictInsert entry header v) runs
    else if header = "Pos" then
      match parsePos text with
      | some n => processCells rest (dictInsert entry header (.vInt n)) runs
      | none => .error .valueError
    else processCells rest (dictInsert entry header (.vStr text)) runs

/-- Parser state across result rows: the emitted entries plus, in multirow
mode, the open `(current_entry, current_runs)` pair (`none` models the two
variables still holding Python `None`; the code only ever assigns them
together). -/
structure PState where
  results : List Entry
  current : Option (Entry × List RunVal)
deriving DecidableEq, Repr

/-- The `Runs` value attached in the single-row branch:
`entry["Runs"] = current_runs`, where `current_runs` may still be `None`. -/
def runsValue : Option (Entry × List RunVal) → Value
  | some (_, cr) => .vRuns cr
  | none => .vNone

/-- Multirow continuation row (`row_data[0].text` empty): read `Diff.` from
the row's `Total` field if absent, then extend the open run list.  A still
`None` current entry raises `TypeError`; a missing `Total` key raises
`KeyError`. -/
def contStep (st : PState) (entry : Entry) (runs : List RunVal) :
    Except PErr PState :=
  match st.current with
  | none => .error .typeError
  | some (ce, cr) =>
    if (dictLookup ce "Diff.").isNone then
      match dictLookup entry "Total" with
      | some v => .ok ⟨st.results, some (dictInsert ce "Diff." v, cr ++ runs)⟩
      | none => .error .keyError
    else .ok ⟨st.results, some (ce, cr ++ runs)⟩

/-- Multirow new-entry row (`row_data[0].text` nonempty): flush the open
entry when `if current_entry:` is truthy (a non-`None`, nonempty dict),
then open this row's entry.  -/
def newStep (st : PState) (entry : Entry) (runs : List RunVal) : PState :=
  { results :=
      match st.current with
      | some (ce, cr) =>
        if ce ≠ [] then st.results ++ [dictInsert ce "Runs" (.vRuns cr)]
        else st.results
      | none => st.results
    current := some (entry, runs) }

/-- Processing of one result row. -/
def stepRow (multirow : Bool) (headers : List String) (st : PState)
    (row : List Cell) : Except PErr PState :=
  match processCells (headers.zip row) [] [] with
  | .error e => .error e
  | .ok (entry, runs) =>
    if multirow then
      match row with
      | [] => .error .indexError
      | c0 :: _ =>
        if c0.text ≠ "" then .ok (newStep st entry runs)
        else contStep st entry runs
    else .ok ⟨st.results ++ [dictInsert entry "Runs" (runsValue st.current)],
              st.current⟩

/-- The result-row loop. -/
def runRows (multirow : Bool) (headers : List String) :
    PState → List (List Cell) → Except PErr PState
  | st, [] => .ok st
  | st, r :: rs =>
    match stepRow multirow headers st r with
    | .error e => .error e
    | .ok st' => runRows multirow headers st' rs

/-- The layout-detection loop over the headers: `continue` on headers
without `Run`, stop with `True` on the first one that also contains `..`. -/
def multirowLoop : List String → Bool
  | [] => false
  | h :: rest =>
    if strContains h "Run" then
      if strContains h ".." then true else multirowLoop rest
    else multirowLoop rest

/-- The exception (if any) that processing one `(header, cell)` pair raises;
it depends only on the pair, never on the accumulated entry or runs.  Used
to reason about error propagation through `processCells`. -/
def cellErr (hd : String) (cl : Cell) : Option PErr :=
  let text := pyStrip cl.text
  if strContains hd "Run" then
    if cl.valign then
      match parse_time (some text) with
      | none => none
      | some _ => if reRunMatches hd then none else some .attrError
    else none
  else if hd = "Pax Time" then none
  else if hd = "Pos" then
    match parsePos text with
    | some _ => none
    | none => some .valueError
  else none

/-- Embedding of `parse_axware_live_results` from the header extraction
onward: input is the stripped header names and the `<td>` cell lists of the
filtered result rows.  After the loop, multirow mode unconditionally
flushes the open entry (`current_entry["Runs"] = current_runs`), raising
`TypeError` when it is still `None`. -/
def parse_axware_live_results (headers : List String)
    (rows : List (List Cell)) : Except PErr (List Entry) :=
  let multirow := multirowLoop headers
  match runRows multirow headers ⟨[], none⟩ rows with
  | .error e => .error e
  | .ok st =>
    if multirow then
      match st.current with
      | none => .error .typeError
      | some (ce, cr) => .ok (st.results ++ [dictInsert ce "Runs" (.vRuns cr)])
    else .ok st.results

end Axware

deriving instance DecidableEq for Except

namespace Axware

/-! ### Helper lemmas about the character-level machinery -/

theorem toList_mk (l : List Char) : (String.mk l).toList = l := rfl

theorem not_ws_of_digit {c : Char} (h : c.isDigit = true) : isWs c = false := by
  simp only [isWs, Bool.or_eq_false_iff, decide_eq_false_iff_not]
  refine ⟨⟨⟨⟨⟨?_, ?_⟩, ?_⟩, ?_⟩, ?_⟩, ?_⟩ <;> rintro rfl <;> exact absurd h (by decide)

theorem takeWhile_append_all {p : Char → Bool} {a : List Char} (r : List Char)
    (ha : ∀ c ∈ a, p c = true) :
    (a ++ r).takeWhile p = a ++ r.takeWhile p := by
  induction a with
  | nil => simp
  | cons x xs ih =>
    simp only [List.cons_append, List.takeWhile_cons_of_pos (ha x (by simp))]
    rw [ih (fun c hc => ha c (by simp [hc]))]

theorem dropWhile_append_all {p : Char → Bool} {a : List Char} (r : List Char)
    (ha : ∀ c ∈ a, p c = true) :
    (a ++ r).dropWhile p = r.dropWhile p := by
  induction a with
  | nil => simp
  | cons x xs ih =>
    simp only [List.cons_append, List.dropWhile_cons_of_pos (ha x (by simp))]
    exact ih (fun c hc => ha c (by simp [hc]))

theorem takeWhile_all {p : Char → Bool} {l : List Char}
    (h : ∀ c ∈ l, p c = true) : l.takeWhile p = l := by
  have := takeWhile_append_all (a := l) [] h
  simpa using this

theorem dropWhile_all {p : Char → Bool} {l : List Char}
    (h : ∀ c ∈ l, p c = true) : l.dropWhile p = [] := by
  have := dropWhile_append_all (a := l) [] h
  simpa using this

theorem dropWhile_none {p : Char → Bool} {l : List Char}
    (h : ∀ c ∈ l, p c = false) : l.dropWhile p = l := by
  cases l with
  | nil => rfl
  | cons x xs =>
    exact List.dropWhile_cons_of_neg (by simp [h x (by simp)])

theorem dropTrailWs_all_digits {l : List Char}
    (h : ∀ c ∈ l, c.isDigit = true) : dropTrailWs l = l := by
  unfold dropTrailWs
  rw [dropWhile_none (fun c hc => not_ws_of_digit (h c (List.mem_reverse.mp hc)))]
  exact List.reverse_reverse l

theorem stripL_all_digits {l : List Char}
    (h : ∀ c ∈ l, c.isDigit = true) : stripL l = l := by
  unfold stripL
  rw [dropWhile_none (fun c hc => not_ws_of_digit (h c hc))]
  rw [dropWhile_none (fun c hc => not_ws_of_digit (h c (List.mem_reverse.mp hc)))]
  exact List.reverse_reverse l

theorem mem_of_mem_dropWhile {p : Char → Bool} {l : List Char} {c : Char}
    (h : c ∈ l.dropWhile p) : c ∈ l :=
  (List.dropWhile_sublist p).subset h

theorem mem_of_mem_dropTrailWs {l : List Char} {c : Char}
    (h : c ∈ dropTrailWs l) : c ∈ l := by
  unfold dropTrailWs at h
  rw [List.mem_reverse] at h
  exact List.mem_reverse.mp (mem_of_mem_dropWhile h)

theorem mem_of_mem_stripL {l : List Char} {c : Char}
    (h : c ∈ stripL l) : c ∈ l := by
  unfold stripL at h
  rw [List.mem_reverse] at h
  exact mem_of_mem_dropWhile (List.mem_reverse.mp (mem_of_mem_dropWhile h))

theorem digitsUndAux_all {l : List Char}
    (h : ∀ c ∈ l, c.isDigit = true) : digitsUndAux l = true := by
  induction l with
  | nil => rfl
  | cons c rest ih =>
    cases rest with
    | nil => simpa [digitsUndAux] using h c (by simp)
    | cons d r2 =>
      simp only [digitsUndAux, h c (by simp), if_pos]
      exact ih (fun x hx => h x (by simp at hx ⊢; tauto))

theorem digitsUnd_all {l : List Char} (hne : l ≠ [])
    (h : ∀ c ∈ l, c.isDigit = true) : digitsUnd l = true := by
  obtain ⟨c, rest, rfl⟩ := List.exists_cons_of_ne_nil hne
  simp only [digitsUnd, h c (by simp), Bool.true_and]
  exact digitsUndAux_all (fun x hx => h x (by simp [hx]))

theorem undVal_digits {l : List Char}
    (h : ∀ c ∈ l, c.isDigit = true) : undVal l = digitsVal l := by
  unfold undVal
  congr 1
  rw [List.filter_eq_self]
  intro c hc
  have : c ≠ '_' := by
    intro hc'
    subst hc'
    exact absurd (h _ hc) (by decide)
  simpa using this

theorem pyInt_digits {l : List Char} (hne : l ≠ [])
    (h : ∀ c ∈ l, c.isDigit = true) :
    pyInt (String.mk l) = some (digitsVal l : ℤ) := by
  obtain ⟨c, rest, rfl⟩ := List.exists_cons_of_ne_nil hne
  have hc := h c (by simp)
  have hplus : c ≠ '+' := by intro hc'; subst hc'; exact absurd hc (by decide)
  have hminus : c ≠ '-' := by intro hc'; subst hc'; exact absurd hc (by decide)
  simp only [pyInt, toList_mk, stripL_all_digits h]
  rw [if_neg (by simp [hplus]), if_neg (by simp [hminus]),
    if_pos (digitsUnd_all hne h), undVal_digits h]

theorem pyInt_neg_mem {s : String} {k : ℤ} (h : pyInt s = some k) (hk : k < 0) :
    '-' ∈ s.toList := by
  simp only [pyInt] at h
  split at h
  · split at h
    · injection h with h'
      subst h'
      exact absurd hk (by simp)
    · exact absurd h (by simp)
  · split at h
    · split at h
      · rename_i hhead _
        have : '-' ∈ stripL s.toList := by
          cases hl : stripL s.toList with
          | nil => rw [hl] at hhead; simp at hhead
          | cons x xs =>
            rw [hl] at hhead
            simp at hhead
            simp [hhead]
        exact mem_of_mem_stripL this
      · exact absurd h (by simp)
    · split at h
      · injection h with h'
        subst h'
        exact absurd hk (by simp)
      · exact absurd h (by simp)

theorem ratOfParts_nonneg (ip fp : List Char) : 0 ≤ ratOfParts ip fp := by
  unfold ratOfParts
  positivity

/-! ### Characterization of the `_re_time` matcher on grammatical inputs -/

theorem reTimeMatch_head (a : List Char) (r : List Char) (ha : a ≠ [])
    (hda : ∀ c ∈ a, c.isDigit = true) :
    (String.mk (a ++ '.' :: r)).toList.dropWhile isWs = a ++ '.' :: r ∧
    ((String.mk (a ++ '.' :: r)).toList.dropWhile isWs).takeWhile Char.isDigit
      = a ∧
    ((String.mk (a ++ '.' :: r)).toList.dropWhile isWs).dropWhile Char.isDigit
      = '.' :: r := by
  obtain ⟨a0, a', rfl⟩ := List.exists_cons_of_ne_nil ha
  have h0 : isWs a0 = false := not_ws_of_digit (hda a0 (by simp))
  refine ⟨?_, ?_, ?_⟩
  · rw [toList_mk, List.cons_append, List.dropWhile_cons_of_neg (by simp [h0])]
  · rw [toList_mk, List.cons_append, List.dropWhile_cons_of_neg (by simp [h0]),
      ← List.cons_append,
      takeWhile_append_all _ hda, List.takeWhile_cons_of_neg (by decide),
      List.append_nil]
  · rw [toList_mk, List.cons_append, List.dropWhile_cons_of_neg (by simp [h0]),
      ← List.cons_append, dropWhile_append_all _ hda,
      List.dropWhile_cons_of_neg (by decide)]

theorem reTimeMatch_clean (a b : List Char) (ha : a ≠ []) (hb : b ≠ [])
    (hda : ∀ c ∈ a, c.isDigit = true) (hdb : ∀ c ∈ b, c.isDigit = true) :
    reTimeMatch (String.mk (a ++ '.' :: b)) = some ((a, b), none) := by
  obtain ⟨-, h2, h3⟩ := reTimeMatch_head a b ha hda
  simp only [reTimeMatch, h2, h3]
  rw [if_neg (by simp [ha]), takeWhile_all hdb, dropWhile_all hdb]
  simp [hb]

theorem reTimeMatch_plus (a b n : List Char) (ha : a ≠ []) (hb : b ≠ [])
    (hda : ∀ c ∈ a, c.isDigit = true) (hdb : ∀ c ∈ b, c.isDigit = true)
    (hpen : dropTrailWs n ≠ [])
    (hnl : (dropTrailWs n).contains '\n' = false) :
    reTimeMatch (String.mk (a ++ '.' :: (b ++ '+' :: n)))
      = some ((a, b), some (dropTrailWs n)) := by
  obtain ⟨-, h2, h3⟩ := reTimeMatch_head a (b ++ '+' :: n) ha hda
  simp only [reTimeMatch, h2, h3]
  rw [if_neg (by simp [ha]), takeWhile_append_all _ hdb,
    List.takeWhile_cons_of_neg (by decide), List.append_nil,
    dropWhile_append_all _ hdb, List.dropWhile_cons_of_neg (by decide)]
  rw [if_neg (by simp [hb])]
  have hnl' : '\n' ∉ dropTrailWs n := by simpa using hnl
  simp [hpen, hnl']

theorem reTimeMatch_pen_sub {s : String} {ip fp pen : List Char}
    (h : reTimeMatch s = some ((ip, fp), some pen)) :
    ∀ c ∈ pen, c ∈ s.toList := by
  intro c hc
  simp only [reTimeMatch] at h
  split at h
  · exact absurd h (by simp)
  · split at h
    · split at h
      · exact absurd h (by simp)
      · split at h
        · split at h
          · exact absurd h (by simp)
          · split at h
            · exact absurd h (by simp)
            · rename_i hip r1g r2l heq1 hfp r3g r4l heq4 hpenx hnlx
              injection h with h'
              injection h' with h1 h2
              injection h2 with h2'
              subst h2'
              have hc4 : c ∈ r4l := mem_of_mem_dropTrailWs hc
              have hc3 : c ∈ ('+' :: r4l) := by simp [hc4]
              rw [← heq4] at hc3
              have hc2 : c ∈ r2l := mem_of_mem_dropWhile hc3
              have hc1 : c ∈ ('.' :: r2l) := by simp [hc2]
              rw [← heq1] at hc1
              exact mem_of_mem_dropWhile (mem_of_mem_dropWhile hc1)
        · split at h
          · exact absurd h (by simp)
          · exact absurd h (by simp)
    · exact absurd h (by simp)

theorem mk_digits_not_override {n : List Char}
    (h : ∀ c ∈ n, c.isDigit = true) : String.mk n ∉ overrides := by
  intro hmem
  simp only [overrides, List.mem_cons, List.not_mem_nil, or_false] at hmem
  rcases hmem with hm | hm | hm | hm
  · have hd := congrArg String.toList hm
    rw [toList_mk] at hd
    have hx : ('d' : Char) ∈ n := by rw [hd]; decide
    exact absurd (h _ hx) (by decide)
  · have hd := congrArg String.toList hm
    rw [toList_mk] at hd
    have hx : ('d' : Char) ∈ n := by rw [hd]; decide
    exact absurd (h _ hx) (by decide)
  · have hd := congrArg String.toList hm
    rw [toList_mk] at hd
    have hx : ('o' : Char) ∈ n := by rw [hd]; decide
    exact absurd (h _ hx) (by decide)
  · have hd := congrArg String.toList hm
    rw [toList_mk] at hd
    have hx : ('o' : Char) ∈ n := by rw [hd]; decide
    exact absurd (h _ hx) (by decide)

theorem parse_time_clean (a b : List Char) (ha : a ≠ []) (hb : b ≠ [])
    (hda : ∀ c ∈ a, c.isDigit = true) (hdb : ∀ c ∈ b, c.isDigit = true) :
    parse_time (some (String.mk (a ++ '.' :: b)))
      = some (ratOfParts a b, 0, "clean") := by
  simp only [parse_time, reTimeMatch_clean a b ha hb hda hdb]

theorem parse_time_digits (a b n : List Char) (ha : a ≠ []) (hb : b ≠ [])
    (hn : n ≠ []) (hda : ∀ c ∈ a, c.isDigit = true)
    (hdb : ∀ c ∈ b, c.isDigit = true) (hdn : ∀ c ∈ n, c.isDigit = true) :
    parse_time (some (String.mk (a ++ '.' :: (b ++ '+' :: n))))
      = some (ratOfParts a b, (digitsVal n : ℤ), "dirty") := by
  have hdt : dropTrailWs n = n := dropTrailWs_all_digits hdn
  have hpen : dropTrailWs n ≠ [] := by rw [hdt]; exact hn
  have hnl : (dropTrailWs n).contains '\n' = false := by
    rw [hdt]
    have : '\n' ∉ n := fun hm => absurd (hdn _ hm) (by decide)
    simpa using this
  simp only [parse_time, reTimeMatch_plus a b n ha hb hda hdb hpen hnl, hdt]
  rw [if_neg (mk_digits_not_override hdn), pyInt_digits hn hdn]

theorem parse_time_override (a b : List Char) (s : String) (ha : a ≠ [])
    (hb : b ≠ []) (hda : ∀ c ∈ a, c.isDigit = true)
    (hdb : ∀ c ∈ b, c.isDigit = true) (hs : s ∈ overrides) :
    parse_time (some (String.mk (a ++ '.' :: (b ++ '+' :: s.toList))))
      = some (ratOfParts a b, 0, s) := by
  simp only [overrides, List.mem_cons, List.not_mem_nil, or_false] at hs
  rcases hs with rfl | rfl | rfl | rfl
  · rw [(by decide : ("dnf" : String).toList = ['d', 'n', 'f'])]
    have h1 := reTimeMatch_plus a b ['d', 'n', 'f'] ha hb hda hdb
      (by decide) (by decide)
    rw [(by decide : dropTrailWs ['d', 'n', 'f'] = ['d', 'n', 'f'])] at h1
    simp only [parse_time, h1]
    rw [if_pos (by decide : String.mk ['d', 'n', 'f'] ∈ overrides),
      (by decide : String.mk ['d', 'n', 'f'] = "dnf")]
  · rw [(by decide : ("dsq" : String).toList = ['d', 's', 'q'])]
    have h1 := reTimeMatch_plus a b ['d', 's', 'q'] ha hb hda hdb
      (by decide) (by decide)
    rw [(by decide : dropTrailWs ['d', 's', 'q'] = ['d', 's', 'q'])] at h1
    simp only [parse_time, h1]
    rw [if_pos (by decide : String.mk ['d', 's', 'q'] ∈ overrides),
      (by decide : String.mk ['d', 's', 'q'] = "dsq")]
  · rw [(by decide : ("off" : String).toList = ['o', 'f', 'f'])]
    have h1 := reTimeMatch_plus a b ['o', 'f', 'f'] ha hb hda hdb
      (by decide) (by decide)
    rw [(by decide : dropTrailWs ['o', 'f', 'f'] = ['o', 'f', 'f'])] at h1
    simp only [parse_time, h1]
    rw [if_pos (by decide : String.mk ['o', 'f', 'f'] ∈ overrides),
      (by decide : String.mk ['o', 'f', 'f'] = "off")]
  · rw [(by decide : ("out" : String).toList = ['o', 'u', 't'])]
    have h1 := reTimeMatch_plus a b ['o', 'u', 't'] ha hb hda hdb
      (by decide) (by decide)
    rw [(by decide : dropTrailWs ['o', 'u', 't'] = ['o', 'u', 't'])] at h1
    simp only [parse_time, h1]
    rw [if_pos (by decide : String.mk ['o', 'u', 't'] ∈ overrides),
      (by decide : String.mk ['o', 'u', 't'] = "out")]

/-! ### Claim theorems about `parse_time` -/

/-- C3: `parse_time` implements the suffix decision rule: a bare grammar
number `<digits>.<digits>` yields `(number, 0, "clean")`; `<number>+<n>`
with `<n>` a non-negative integer literal yields `(number, n, "dirty")`;
and `<number>+s` with `s` one of `dnf`, `dsq`, `off`, `out` yields
`(number, 0, s)`. -/
theorem c3_parse_time_suffix_rule :
    (∀ a b : List Char, a ≠ [] → b ≠ [] →
      (∀ c ∈ a, c.isDigit = true) → (∀ c ∈ b, c.isDigit = true) →
      parse_time (some (String.mk (a ++ '.' :: b)))
        = some (ratOfParts a b, 0, "clean")) ∧
    (∀ a b n : List Char, a ≠ [] → b ≠ [] → n ≠ [] →
      (∀ c ∈ a, c.isDigit = true) → (∀ c ∈ b, c.isDigit = true) →
      (∀ c ∈ n, c.isDigit = true) →
      parse_time (some (String.mk (a ++ '.' :: (b ++ '+' :: n))))
        = some (ratOfParts a b, (digitsVal n : ℤ), "dirty")) ∧
    (∀ (a b : List Char) (s : String), a ≠ [] → b ≠ [] →
      (∀ c ∈ a, c.isDigit = true) → (∀ c ∈ b, c.isDigit = true) →
      s ∈ overrides →
      parse_time (some (String.mk (a ++ '.' :: (b ++ '+' :: s.toList))))
        = some (ratOfParts a b, 0, s)) :=
  ⟨parse_time_clean, parse_time_digits, parse_time_override⟩

/-- Witness for C3 at `"1.2"`, `"1.2+5"` and `"1.2+dnf"`. -/
theorem c3_parse_time_suffix_rule_witness :
    parse_time (some (String.mk (['1'] ++ '.' :: ['2'])))
      = some (ratOfParts ['1'] ['2'], 0, "clean") ∧
    parse_time (some (String.mk (['1'] ++ '.' :: (['2'] ++ '+' :: ['5']))))
      = some (ratOfParts ['1'] ['2'], (digitsVal ['5'] : ℤ), "dirty") ∧
    parse_time
        (some (String.mk (['1'] ++ '.' :: (['2'] ++ '+' :: ("dnf" : String).toList))))
      = some (ratOfParts ['1'] ['2'], 0, "dnf") :=
  ⟨c3_parse_time_suffix_rule.1 ['1'] ['2'] (by decide) (by decide)
      (by decide) (by decide),
   c3_parse_time_suffix_rule.2.1 ['1'] ['2'] ['5'] (by decide) (by decide)
      (by decide) (by decide) (by decide) (by decide),
   c3_parse_time_suffix_rule.2.2 ['1'] ['2'] "dnf" (by decide) (by decide)
      (by decide) (by decide) (by decide)⟩

/-- C4: `parse_time` returns `none` (never an exception) on `None`, on the
empty string, on any string the time grammar rejects, and on any matching
string whose cone suffix is not a valid integer. -/
theorem c4_parse_time_failure_null :
    parse_time none = none ∧
    parse_time (some "") = none ∧
    (∀ s : String, reTimeMatch s = none → parse_time (some s) = none) ∧
    (∀ (s : String) (ip fp pen : List Char),
      reTimeMatch s = some ((ip, fp), some pen) →
      String.mk pen ∉ overrides → pyInt (String.mk pen) = none →
      parse_time (some s) = none) := by
  refine ⟨rfl, by decide, ?_, ?_⟩
  · intro s h
    simp only [parse_time, h]
  · intro s ip fp pen h h2 h3
    simp only [parse_time, h, if_neg h2, h3]

/-- Witness for C4 at `"abc"` (grammar failure) and `"1.2+x"` (non-integer
cone suffix). -/
theorem c4_parse_time_failure_null_witness :
    parse_time (some "abc") = none ∧ parse_time (some "1.2+x") = none :=
  ⟨c4_parse_time_failure_null.2.2.1 "abc" (by decide),
   c4_parse_time_failure_null.2.2.2 "1.2+x" ['1'] ['2'] ['x'] (by decide)
      (by decide) (by decide)⟩

/-- C5 counterexample: the claimed RunResult invariant fails as stated —
on input `"1.23+-5"` the code returns the non-null triple
`(1.23, -5, "dirty")` whose `penalty_count` is negative, because Python
`int` accepts the signed literal `"-5"` captured by the lazy `.+?`. -/
theorem c5_runresult_invariant_counterexample :
    parse_time (some "1.23+-5") = some (ratOfParts ['1'] ['2', '3'], -5, "dirty") ∧
    ratOfParts ['1'] ['2', '3'] = 123 / 100 ∧ ¬ (0 : ℤ) ≤ -5 := by
  refine ⟨rfl, ?_, by decide⟩
  rw [ratOfParts, (by decide : digitsVal ['1'] = 1),
    (by decide : digitsVal ['2', '3'] = 23)]
  norm_num

/-- C5 (amended): every non-null triple returned by `parse_time` has a
non-negative `raw_time`, a status among `clean`, `dirty` and the four
override tokens, a `penalty_count` that is nonzero only when the status is
`dirty` and zero for every override status; `penalty_count` can only be
negative when the input string itself carries a minus sign (in its cone
suffix). -/
theorem c5_runresult_invariant_amended :
    ∀ (inp : Option String) (q : ℚ) (n : ℤ) (st : String),
      parse_time inp = some (q, n, st) →
      0 ≤ q ∧ st ∈ ("clean" :: "dirty" :: overrides) ∧
      (n ≠ 0 → st = "dirty") ∧ (st ∈ overrides → n = 0) ∧
      (n < 0 → ∃ s, inp = some s ∧ '-' ∈ s.toList) := by
  intro inp q n st h
  cases inp with
  | none => exact absurd h (by simp [parse_time])
  | some s =>
    simp only [parse_time] at h
    cases hm : reTimeMatch s with
    | none => rw [hm] at h; exact absurd h (by simp)
    | some pr =>
      obtain ⟨⟨ip, fp⟩, penOpt⟩ := pr
      rw [hm] at h
      cases penOpt with
      | none =>
        simp only [Option.some.injEq, Prod.mk.injEq] at h
        obtain ⟨hq, hn, hst⟩ := h
        subst hq; subst hn; subst hst
        refine ⟨ratOfParts_nonneg ip fp, by decide, ?_, ?_, ?_⟩
        · intro hn0; exact absurd rfl hn0
        · intro hmem; rfl
        · intro hneg; exact absurd hneg (by decide)
      | some pen =>
        by_cases hov : String.mk pen ∈ overrides
        · simp only [if_pos hov, Option.some.injEq, Prod.mk.injEq] at h
          obtain ⟨hq, hn, hst⟩ := h
          subst hq; subst hn; subst hst
          refine ⟨ratOfParts_nonneg ip fp, ?_, ?_, ?_, ?_⟩
          · exact List.mem_cons_of_mem _ (List.mem_cons_of_mem _ hov)
          · intro hn0; exact absurd rfl hn0
          · intro _; rfl
          · intro hneg; exact absurd hneg (by decide)
        · simp only [if_neg hov] at h
          cases hpi : pyInt (String.mk pen) with
          | none => rw [hpi] at h; exact absurd h (by simp)
          | some k =>
            rw [hpi] at h
            simp only [Option.some.injEq, Prod.mk.injEq] at h
            obtain ⟨hq, hn, hst⟩ := h
            subst hq; subst hn; subst hst
            refine ⟨ratOfParts_nonneg ip fp, by decide, ?_, ?_, ?_⟩
            · intro _; rfl
            · intro hmem; exact absurd hmem (by decide)
            · intro hneg
              refine ⟨s, rfl, ?_⟩
              have hmpen : '-' ∈ pen := by
                have := pyInt_neg_mem hpi hneg
                rwa [toList_mk] at this
              exact reTimeMatch_pen_sub hm '-' hmpen

/-- Witness for C5 (amended) at `"1.2+3"`. -/
theorem c5_runresult_invariant_amended_witness :
    parse_time (some "1.2+3") = some (ratOfParts ['1'] ['2'], 3, "dirty") ∧
    (0 ≤ ratOfParts ['1'] ['2'] ∧
      "dirty" ∈ ("clean" :: "dirty" :: overrides) ∧
      ((3 : ℤ) ≠ 0 → "dirty" = "dirty") ∧
      ("dirty" ∈ overrides → (3 : ℤ) = 0) ∧
      ((3 : ℤ) < 0 → ∃ s, (some "1.2+3" : Option String) = some s ∧
        '-' ∈ s.toList)) :=
  ⟨rfl,
   c5_runresult_invariant_amended (some "1.2+3") (ratOfParts ['1'] ['2']) 3
     "dirty" rfl⟩

/-! ### Error propagation through the row/cell loops -/

theorem processCells_cons_error {hd : String} {cl : Cell}
    {rest : List (String × Cell)} {entry : Entry} {runs : List RunVal}
    {e : PErr} (h : cellErr hd cl = some e) :
    processCells ((hd, cl) :: rest) entry runs = .error e := by
  simp only [cellErr] at h
  simp only [processCells]
  by_cases h1 : strContains hd "Run" = true
  · rw [if_pos h1] at h ⊢
    by_cases h2 : cl.valign = true
    · rw [if_pos h2] at h ⊢
      cases hpt : parse_time (some (pyStrip cl.text)) with
      | none =>
        rw [hpt] at h
        dsimp only at h
        exact absurd h (by simp)
      | some rv =>
        rw [hpt] at h
        dsimp only at h
        by_cases h3 : reRunMatches hd = true
        · rw [if_pos h3] at h; exact absurd h (by simp)
        · rw [if_neg h3] at h
          injection h with h'
          rw [h']
          show (if reRunMatches hd = true then
              processCells rest entry (runs ++ [rv])
            else Except.error e) = Except.error e
          rw [if_neg h3]
    · rw [if_neg h2] at h; exact absurd h (by simp)
  · rw [if_neg h1] at h ⊢
    by_cases h2 : hd = "Pax Time"
    · rw [if_pos h2] at h; exact absurd h (by simp)
    · rw [if_neg h2] at h ⊢
      by_cases h3 : hd = "Pos"
      · rw [if_pos h3] at h ⊢
        cases hp : parsePos (pyStrip cl.text) with
        | some n =>
          rw [hp] at h
          dsimp only at h
          exact absurd h (by simp)
        | none =>
          rw [hp] at h
          dsimp only at h
          injection h with h'
          rw [h']
      · rw [if_neg h3] at h; exact absurd h (by simp)

theorem processCells_cons_ok {hd : String} {cl : Cell}
    (rest : List (String × Cell)) (entry : Entry) (runs : List RunVal)
    (h : cellErr hd cl = none) :
    ∃ e' r', processCells ((hd, cl) :: rest) entry runs
      = processCells rest e' r' := by
  simp only [cellErr] at h
  simp only [processCells]
  by_cases h1 : strContains hd "Run" = true
  · rw [if_pos h1] at h ⊢
    by_cases h2 : cl.valign = true
    · rw [if_pos h2] at h ⊢
      cases hpt : parse_time (some (pyStrip cl.text)) with
      | none => exact ⟨entry, runs, rfl⟩
      | some rv =>
        rw [hpt] at h
        dsimp only at h
        by_cases h3 : reRunMatches hd = true
        · refine ⟨entry, runs ++ [rv], ?_⟩
          show (if reRunMatches hd = true then
              processCells rest entry (runs ++ [rv])
            else Except.error PErr.attrError)
            = processCells rest entry (runs ++ [rv])
          rw [if_pos h3]
        · rw [if_neg h3] at h; exact absurd h (by simp)
    · rw [if_neg h2]
      exact ⟨entry, runs, rfl⟩
  · rw [if_neg h1] at h ⊢
    by_cases h2 : hd = "Pax Time"
    · rw [if_pos h2]
      exact ⟨_, runs, rfl⟩
    · rw [if_neg h2] at h ⊢
      by_cases h3 : hd = "Pos"
      · rw [if_pos h3] at h ⊢
        cases hp : parsePos (pyStrip cl.text) with
        | some n => exact ⟨_, runs, rfl⟩
        | none =>
          rw [hp] at h
          dsimp only at h
          exact absurd h (by simp)
      · rw [if_neg h3]
        exact ⟨_, runs, rfl⟩

theorem processCells_error {pairs : List (String × Cell)}
    (h : ∃ p ∈ pairs, ∃ e, cellErr p.1 p.2 = some e) :
    ∀ entry runs, ∃ e, processCells pairs entry runs = .error e := by
  induction pairs with
  | nil =>
    rcases h with ⟨p, hp, -⟩
    exact absurd hp (by simp)
  | cons q rest ih =>
    intro entry runs
    obtain ⟨hd, cl⟩ := q
    rcases h with ⟨p, hp, e, he⟩
    rcases List.mem_cons.mp hp with rfl | hmem
    · exact ⟨e, processCells_cons_error he⟩
    · cases hq : cellErr hd cl with
      | some e0 => exact ⟨e0, processCells_cons_error hq⟩
      | none =>
        obtain ⟨e', r', heq⟩ := processCells_cons_ok rest entry runs hq
        rw [heq]
        exact ih ⟨p, hmem, e, he⟩ e' r'

theorem stepRow_error (m : Bool) (hs : List String) (st : PState)
    {row : List Cell} {e : PErr}
    (h : processCells (hs.zip row) [] [] = .error e) :
    stepRow m hs st row = .error e := by
  simp only [stepRow, h]

theorem runRows_error (m : Bool) (hs : List String) (rows : List (List Cell))
    (h : ∃ row ∈ rows, ∃ e, processCells (hs.zip row) [] [] = .error e) :
    ∀ st, ∃ e, runRows m hs st rows = .error e := by
  induction rows with
  | nil =>
    rcases h with ⟨row, hr, -⟩
    exact absurd hr (by simp)
  | cons r rs ih =>
    intro st
    rcases h with ⟨row, hr, e, he⟩
    rcases List.mem_cons.mp hr with rfl | hmem
    · exact ⟨e, by simp only [runRows, stepRow_error m hs st he]⟩
    · cases hsr : stepRow m hs st r with
      | error e0 => exact ⟨e0, by simp only [runRows, hsr]⟩
      | ok st' =>
        obtain ⟨e', he'⟩ := ih ⟨row, hmem, e, he⟩ st'
        exact ⟨e', by simp only [runRows, hsr]; exact he'⟩

theorem parse_error_of_cell {hs : List String} {rows : List (List Cell)}
    (h : ∃ row ∈ rows, ∃ p ∈ hs.zip row, ∃ e, cellErr p.1 p.2 = some e) :
    ∃ e, parse_axware_live_results hs rows = .error e := by
  rcases h with ⟨row, hr, hcell⟩
  obtain ⟨e, he⟩ :=
    runRows_error (multirowLoop hs) hs rows
      ⟨row, hr, processCells_error hcell [] []⟩ ⟨[], none⟩
  exact ⟨e, by simp only [parse_axware_live_results, he]⟩

theorem strContains_iff {hay needle : String} :
    strContains hay needle = true ↔ needle.toList <:+: hay.toList := by
  simp [strContains]

/-! ### Claim theorems about `parse_axware_live_results` -/

/-- C1 (code bug): in single-row layout the code assigns
`entry["Runs"] = current_runs`, but `current_runs` is only ever written in
the multirow branch, so every single-row Entry gets `Runs = None` instead
of the row's parsed runs.  Here a row with one `valign`-bearing run cell
whose text parses to a valid time still yields `Runs = None`. -/
theorem c1_single_row_runs_code_bug :
    parse_axware_live_results ["Pos", "Run 1"]
        [[⟨"1", false⟩, ⟨"23.456", true⟩]]
      = .ok [[("Pos", Value.vInt 1), ("Runs", Value.vNone)]] ∧
    parse_time (some (pyStrip "23.456")) ≠ none ∧
    (⟨"23.456", true⟩ : Cell).valign = true := by
  refine ⟨rfl, by decide, rfl⟩

/-- C2: multirow stitching — a primary row (first-cell text `"1"`, 3 valid
run cells) followed by a continuation row (empty first cell, `Total` cell
`"-2.345"`, 2 valid run cells) yields one Entry with `Diff. = "-2.345"`
and 5 runs in left-to-right, row order; and a continuation row leaves an
already present `Diff.` untouched. -/
theorem c2_multirow_stitching :
    parse_axware_live_results ["Car", "Total", "Run 1..", "Run 2..", "Run 3.."]
        [[⟨"1", false⟩, ⟨"58.123", false⟩, ⟨"31.1", true⟩, ⟨"32.2", true⟩,
          ⟨"33.3", true⟩],
         [⟨"", false⟩, ⟨"-2.345", false⟩, ⟨"34.4", true⟩, ⟨"35.5", true⟩]]
      = .ok [[("Car", Value.vStr "1"), ("Total", Value.vStr "58.123"),
              ("Diff.", Value.vStr "-2.345"),
              ("Runs", Value.vRuns
                [(ratOfParts ['3', '1'] ['1'], 0, "clean"),
                 (ratOfParts ['3', '2'] ['2'], 0, "clean"),
                 (ratOfParts ['3', '3'] ['3'], 0, "clean"),
                 (ratOfParts ['3', '4'] ['4'], 0, "clean"),
                 (ratOfParts ['3', '5'] ['5'], 0, "clean")])]] ∧
    (∀ (res : List Entry) (ce : Entry) (cr runs : List RunVal)
        (entry : Entry) (v : Value),
      dictLookup ce "Diff." = some v →
      contStep ⟨res, some (ce, cr)⟩ entry runs
        = .ok ⟨res, some (ce, cr ++ runs)⟩) := by
  constructor
  · rfl
  · intro res ce cr runs entry v hv
    simp [contStep, hv]

/-- Witness for C2's guard: a continuation step with `Diff.` already set
keeps it unchanged. -/
theorem c2_multirow_stitching_witness :
    dictLookup [("Diff.", Value.vStr "x")] "Diff." = some (Value.vStr "x") ∧
    contStep ⟨[], some ([("Diff.", Value.vStr "x")], [])⟩ [] []
      = .ok ⟨[], some ([("Diff.", Value.vStr "x")], [] ++ [])⟩ :=
  ⟨rfl, c2_multirow_stitching.2 [] [("Diff.", Value.vStr "x")] [] [] []
    (Value.vStr "x") rfl⟩

/-- C6: the `Pos` value is `int` of the trimmed text with every `T`
removed — `"3" ↦ 3`, `"4T" ↦ 4`, `"T4T2T" ↦ 42` — and a non-integer
remainder (`"abc"`) aborts the whole document's parse with a propagating
error instead of a silent null. -/
theorem c6_pos_parsing :
    parsePos "3" = some 3 ∧ parsePos "4T" = some 4 ∧
    parsePos "T4T2T" = some 42 ∧ parsePos "abc" = none ∧
    parse_axware_live_results ["Pos", "Driver"]
        [[⟨"abc", false⟩, ⟨"X", false⟩]] = .error .valueError := by
  refine ⟨by decide, by decide, by decide, by decide, rfl⟩

/-- C7: layout detection is decided solely by the header names — multirow
mode holds iff some header contains both the substring `Run` and the
substring `..`; in particular `"Run 1.."`/`"Run 2.."` trigger it while
`"Run 1"`/`"Run 2"` do not. -/
theorem c7_layout_detection :
    (∀ hs : List String, multirowLoop hs = true ↔
      ∃ h ∈ hs, ("Run" : String).toList <:+: h.toList ∧
        (".." : String).toList <:+: h.toList) ∧
    multirowLoop ["Run 1..", "Run 2.."] = true ∧
    multirowLoop ["Run 1", "Run 2"] = false := by
  refine ⟨?_, by decide, by decide⟩
  intro hs
  induction hs with
  | nil => simp [multirowLoop]
  | cons hh rest ih =>
    simp only [multirowLoop]
    by_cases h1 : strContains hh "Run" = true
    · rw [if_pos h1]
      by_cases h2 : strContains hh ".." = true
      · rw [if_pos h2]
        constructor
        · intro _
          exact ⟨hh, by simp, strContains_iff.mp h1, strContains_iff.mp h2⟩
        · intro _
          rfl
      · rw [if_neg h2, ih]
        constructor
        · rintro ⟨x, hx, p1, p2⟩
          exact ⟨x, by simp [hx], p1, p2⟩
        · rintro ⟨x, hx, p1, p2⟩
          rcases List.mem_cons.mp hx with rfl | hx'
          · exact absurd (strContains_iff.mpr p2) h2
          · exact ⟨x, hx', p1, p2⟩
    · rw [if_neg h1, ih]
      constructor
      · rintro ⟨x, hx, p1, p2⟩
        exact ⟨x, by simp [hx], p1, p2⟩
      · rintro ⟨x, hx, p1, p2⟩
        rcases List.mem_cons.mp hx with rfl | hx'
        · exact absurd (strContains_iff.mpr p1) h1
        · exact ⟨x, hx', p1, p2⟩

/-- C8 counterexample: with the `Total` column relabeled (here `Sum`) and
the open Entry lacking `Diff.`, parsing does NOT "continue and complete
without raising" — `entry["Total"]` raises `KeyError` and the document's
parse aborts. -/
theorem c8_total_missing_counterexample :
    parse_axware_live_results ["Car", "Sum", "Run 1..", "Run 2.."]
        [[⟨"1", false⟩, ⟨"58.1", false⟩, ⟨"31.1", true⟩, ⟨"32.2", true⟩],
         [⟨"", false⟩, ⟨"-2.345", false⟩, ⟨"33.3", true⟩, ⟨"34.4", true⟩]]
      = .error .keyError := rfl

/-- C8 (amended): in multirow mode, when a continuation row's field mapping
has no column named exactly `Total` and the open Entry has no `Diff.` yet,
the parse raises `KeyError` (aborting the document) rather than completing
with `Diff.` absent. -/
theorem c8_total_missing_amended :
    (∀ (st : PState) (ce : Entry) (cr : List RunVal) (entry : Entry)
        (runs : List RunVal),
      st.current = some (ce, cr) → dictLookup ce "Diff." = none →
      dictLookup entry "Total" = none →
      contStep st entry runs = .error .keyError) ∧
    parse_axware_live_results ["Car", "Sum", "Run 1..", "Run 2.."]
        [[⟨"1", false⟩, ⟨"58.1", false⟩, ⟨"31.1", true⟩, ⟨"32.2", true⟩],
         [⟨"", false⟩, ⟨"-2.345", false⟩, ⟨"33.3", true⟩, ⟨"34.4", true⟩]]
      = .error .keyError := by
  constructor
  · intro st ce cr entry runs hcur hdiff htot
    simp [contStep, hcur, hdiff, htot]
  · rfl

/-- Witness for C8 (amended) at an empty open entry and empty continuation
mapping. -/
theorem c8_total_missing_amended_witness :
    (⟨[], some (([] : Entry), ([] : List RunVal))⟩ : PState).current
      = some ([], []) ∧
    dictLookup [] "Diff." = none ∧ dictLookup [] "Total" = none ∧
    contStep ⟨[], some ([], [])⟩ [] [] = .error .keyError :=
  ⟨rfl, rfl, rfl,
   c8_total_missing_amended.1 ⟨[], some ([], [])⟩ [] [] [] [] rfl rfl rfl⟩

/-- C9 counterexample: the claim's boundary "not of the shape
`Run <digits>` (optionally followed by `..`)" is wrong — the dots in
`_re_run`'s `(\s*..)?` group are unescaped, so the pattern also accepts
headers such as `"Run 1ab"`, whose suffix `ab` is not `..`.  Such a header
contains `Run` and is not of the claimed shape, yet a `valign`-bearing cell
under it whose text parses as a valid time is recorded as a run and the
parse completes normally instead of raising. -/
theorem c9_malformed_run_header_counterexample :
    strContains "Run 1ab" "Run" = true ∧
    reRunMatches "Run 1ab" = true ∧
    parse_axware_live_results ["Car", "Run 1ab", "Run 2.."]
        [[⟨"1", false⟩, ⟨"23.456", true⟩]]
      = .ok [[("Car", Value.vStr "1"),
              ("Runs", Value.vRuns
                [(ratOfParts ['2', '3'] ['4', '5', '6'], 0, "clean")])]] := by
  refine ⟨by decide, by decide, rfl⟩

/-- C9 (amended): a header that contains `Run` but fails to match
`_re_run` (e.g. `"Best Run"`) makes the parse raise (`.group` on a failed
match) and abort the document whenever a cell in that column carries
`valign` and parses as a valid time.  Because the dots of `(\s*..)?` are
unescaped, `_re_run` accepts `Run <digits>` optionally followed by
whitespace and any two non-newline characters (then trailing whitespace),
so headers like `"Run 1ab"` do not trigger the abort. -/
theorem c9_malformed_run_header_aborts :
    ∀ (hs : List String) (rows : List (List Cell)) (row : List Cell)
      (j : ℕ) (hd : String) (cl : Cell),
      row ∈ rows → hs[j]? = some hd → row[j]? = some cl →
      strContains hd "Run" = true → reRunMatches hd = false →
      cl.valign = true → parse_time (some (pyStrip cl.text)) ≠ none →
      ∃ e, parse_axware_live_results hs rows = .error e := by
  intro hs rows row j hd cl hrow hhd hcl hRun hshape hva hpt
  have hzip : (hs.zip row)[j]? = some (hd, cl) :=
    List.getElem?_zip_eq_some.mpr ⟨hhd, hcl⟩
  have hmem : (hd, cl) ∈ hs.zip row := List.getElem?_mem hzip
  have hnr : ¬ reRunMatches hd = true := by simp [hshape]
  have hce : cellErr hd cl = some .attrError := by
    simp only [cellErr]
    rw [if_pos hRun, if_pos hva]
    cases hptv : parse_time (some (pyStrip cl.text)) with
    | none => exact absurd hptv hpt
    | some rv =>
      show (if reRunMatches hd = true then none else some PErr.attrError)
        = some PErr.attrError
      rw [if_neg hnr]
  exact parse_error_of_cell ⟨row, hrow, (hd, cl), hmem, .attrError, hce⟩

/-- Witness for C9 at header `"Best Run"` with run cell `"23.456"`. -/
theorem c9_malformed_run_header_aborts_witness :
    (["Best Run"] : List String)[0]? = some "Best Run" ∧
    ([(⟨"23.456", true⟩ : Cell)])[0]? = some ⟨"23.456", true⟩ ∧
    strContains "Best Run" "Run" = true ∧
    reRunMatches "Best Run" = false ∧
    ∃ e, parse_axware_live_results ["Best Run"] [[⟨"23.456", true⟩]]
      = .error e :=
  ⟨rfl, rfl, by decide, by decide,
   c9_malformed_run_header_aborts ["Best Run"] [[⟨"23.456", true⟩]]
     [⟨"23.456", true⟩] 0 "Best Run" ⟨"23.456", true⟩ (by simp) rfl rfl
     (by decide) (by decide) rfl (by decide)⟩

/-- C10: in multirow mode the parse raises whenever no entry is open at a
point that needs one — an empty result-row list hits the unconditional
final flush (`None["Runs"]`, a `TypeError`), and a first row that is a
continuation row (empty first-cell text) hits the membership test on a
`None` current entry. -/
theorem c10_multirow_no_open_entry_aborts :
    (∀ hs : List String, multirowLoop hs = true →
      parse_axware_live_results hs [] = .error .typeError) ∧
    (∀ (hs : List String) (c0 : Cell) (cs : List Cell)
        (rrest : List (List Cell)),
      multirowLoop hs = true → c0.text = "" →
      ∃ e, parse_axware_live_results hs ((c0 :: cs) :: rrest)
        = .error e) := by
  constructor
  · intro hs hm
    simp [parse_axware_live_results, runRows, hm]
  · intro hs c0 cs rrest hm h0
    cases hpc : processCells (hs.zip (c0 :: cs)) [] [] with
    | error e =>
      obtain ⟨e', he'⟩ := runRows_error (multirowLoop hs) hs
        ((c0 :: cs) :: rrest) ⟨c0 :: cs, List.mem_cons_self _ _, e, hpc⟩
        ⟨[], none⟩
      exact ⟨e', by simp only [parse_axware_live_results, he']⟩
    | ok pr =>
      obtain ⟨entry, runs⟩ := pr
      have hstep : stepRow (multirowLoop hs) hs ⟨[], none⟩ (c0 :: cs)
          = .error .typeError := by
        simp [stepRow, hpc, hm, h0, contStep]
      refine ⟨.typeError, ?_⟩
      simp only [parse_axware_live_results, runRows, hstep]

/-- Witness for C10 with headers `["Run 1.."]`: the empty document and the
continuation-first document both abort. -/
theorem c10_multirow_no_open_entry_aborts_witness :
    multirowLoop ["Run 1.."] = true ∧
    (⟨"", false⟩ : Cell).text = "" ∧
    parse_axware_live_results ["Run 1.."] [] = .error .typeError ∧
    ∃ e, parse_axware_live_results ["Run 1.."] [[⟨"", false⟩]]
      = .error e :=
  ⟨by decide, rfl,
   c10_multirow_no_open_entry_aborts.1 ["Run 1.."] (by decide),
   c10_multirow_no_open_entry_aborts.2 ["Run 1.."] ⟨"", false⟩ [] []
     (by decide) rfl⟩

end Axware

